import Mathlib

/-!
Shallow embedding of the LinguaFlow core: the record store (services/db.ts),
the query engine and SRS scheduler (store/AppContext.tsx), and the
backup/restore protocol (services/db.ts).  Entity records are embedded as
structures mirroring the TypeScript interfaces in types.ts; each object
store is a list of records in primary-key order (IndexedDB returns records
in key order, and among entries sharing one index key, in primary-key
order).  `put` is modelled by `putByKey`, which overwrites the record with
the same key in place or appends a fresh one.
-/

namespace LinguaFlow

/-- Embeds the WordAnalysis interface of types.ts.  `type` and `level` are
string unions in the source and are embedded as strings. -/
structure WordAnalysis where
  type : String
  word : String
  «lemma» : String
  phonetic : Option String
  partOfSpeech : Option String
  collocations : List String
  context : String
  level : String
  definition : String
  persianTranslation : String
  exampleSentence : String
deriving DecidableEq

/-- Embeds the Flashcard interface (WordAnalysis plus id, articleId,
nextReview, stage, createdAt); the `extends` of the source is flattened. -/
structure Flashcard where
  type : String
  word : String
  «lemma» : String
  phonetic : Option String
  partOfSpeech : Option String
  collocations : List String
  context : String
  level : String
  definition : String
  persianTranslation : String
  exampleSentence : String
  id : String
  articleId : String
  nextReview : Nat
  stage : Nat
  createdAt : Nat
deriving DecidableEq

/-- Embeds the ArticleSegment interface as embedded inside an Article record. -/
structure ArticleSegment where
  id : String
  index : Nat
  title : String
  content : String
  analyzedWords : List WordAnalysis
  approvedWordIds : List String
  persianTranslation : Option String
  isAnalyzed : Bool
deriving DecidableEq

/-- A record of the `segments` object store: an ArticleSegment plus the
`articleId` field that `addArticle` spreads onto it before `put`. -/
structure Segment where
  id : String
  articleId : String
  index : Nat
  title : String
  content : String
  analyzedWords : List WordAnalysis
  approvedWordIds : List String
  persianTranslation : Option String
  isAnalyzed : Bool
deriving DecidableEq

/-- Embeds the Article interface of types.ts. -/
structure Article where
  id : String
  title : String
  segments : List ArticleSegment
  collectionId : Option String
  processedAt : Nat
deriving DecidableEq

/-- Embeds the AppSettings interface of types.ts.  The settings store holds
at most one record, always under the fixed key "config" (`saveSettings` and
`importDatabase` both force `id: 'config'` onto the record), so the store is
embedded as an `Option AppSettings`. -/
structure AppSettings where
  analysisModel : String
  translationModel : String
  ttsModel : String
  pronunciationModel : String
  ttsEngine : String
  segmentLength : Nat
  enabledTypes : List String
deriving DecidableEq

/-- Embeds the Collection interface of types.ts. -/
structure Collection where
  id : String
  name : String
  description : Option String
  coverImage : Option String
deriving DecidableEq

/-- The five object stores of lingua_flow_db.  Each list is in primary-key
order. -/
structure Store where
  articles : List Article
  segments : List Segment
  flashcards : List Flashcard
  settings : Option AppSettings
  collections : List Collection
deriving DecidableEq

/-- The freshly created database: every object store empty. -/
def emptyStore : Store := ⟨[], [], [], none, []⟩

/-! ### Generic keyed-list primitives (IndexedDB `put` / `get`) -/

/-- IndexedDB `put` on a keyed store: overwrite the record with the same
primary key in place, or append the record if its key is absent. -/
def putByKey {α : Type} (key : α → String) (x : α) : List α → List α
  | [] => [x]
  | y :: ys => if key y = key x then x :: ys else y :: putByKey key x ys

/-- IndexedDB `get` on a keyed store: the record with the given primary
key, if any. -/
def getById {α : Type} (key : α → String) (k : String) (l : List α) : Option α :=
  l.find? (fun a => key a = k)

/-- A bulk sequence of `put`s, in document order (used by `addFlashcards`
and `importDatabase`). -/
def putAll {α : Type} (key : α → String) (docs : List α) (l : List α) : List α :=
  docs.foldl (fun acc a => putByKey key a acc) l

/-! ### String helpers (JS `toLowerCase` / `includes`) -/

/-- Whether the second list of characters is a prefix of the first
(JS `String.prototype.startsWith` on character lists). -/
def charsStartWith : List Char → List Char → Bool
  | _, [] => true
  | [], _ :: _ => false
  | a :: as, b :: bs => (a = b) && charsStartWith as bs

/-- Whether `needle` occurs contiguously inside `hay` (character lists). -/
def charsContain (needle : List Char) : List Char → Bool
  | [] => charsStartWith [] needle
  | c :: rest => charsStartWith (c :: rest) needle || charsContain needle rest

/-- JS `hay.includes(needle)`: substring containment. -/
def jsIncludes (hay needle : String) : Bool :=
  charsContain needle.data hay.data

/-- JS `s.toLowerCase()`, character by character. -/
def jsToLower (s : String) : String :=
  ⟨s.data.map Char.toLower⟩

/-- The spec's notion of a case-insensitive substring match (both sides
lowercased).  This is NOT a definition taken from the source; it is the
predicate the spec describes, kept for comparison with the code's filter. -/
def ciContains (hay needle : String) : Bool :=
  jsIncludes (jsToLower hay) (jsToLower needle)

/-- Lexicographic comparison of strings by character code (the model of the
`localeCompare`-based ascending order). -/
def charsLe : List Char → List Char → Bool
  | [], _ => true
  | _ :: _, [] => false
  | a :: as, b :: bs => if a.toNat = b.toNat then charsLe as bs else a.toNat ≤ b.toNat

/-- String comparison used by the sort comparators. -/
def strLe (a b : String) : Bool :=
  charsLe a.data b.data

/-- The headword order underlying `sortByWord`. -/
def wordLe (a b : Flashcard) : Prop := strLe a.word b.word = true

/-! ### Query engine (db.ts `queryFlashcards`, AppContext `getCardsForSession`) -/

/-- The criteria object of `queryFlashcards`; absent fields are `none`. -/
structure Criteria where
  articleId : Option String := none
  type : Option String := none
  level : Option String := none
  search : Option String := none
  limit : Option Nat := none
  offset : Option Nat := none
deriving DecidableEq

/-- JS truthiness test combined with the `!== 'all'` sentinel check used on
each of the three exact-match criteria: the filter is active when the field
is present, non-empty and not "all". -/
def isActive : Option String → Bool
  | none => false
  | some s => !(s = "") && !(s = "all")

/-- The payload of an optional criterion (only read when `isActive`). -/
def strOf (o : Option String) : String := o.getD ""

/-- Lines 164-172 of db.ts: seed the candidate list from exactly one index,
`by-article` before `by-type` before `by-level`, else scan the whole store.
A single-key index lookup returns, in primary-key order, exactly the records
whose indexed field equals the key. -/
def seedResults (cards : List Flashcard) (cr : Criteria) : List Flashcard :=
  if isActive cr.articleId then
    cards.filter (fun f => f.articleId = strOf cr.articleId)
  else if isActive cr.type then
    cards.filter (fun f => f.type = strOf cr.type)
  else if isActive cr.level then
    cards.filter (fun f => f.level = strOf cr.level)
  else
    cards

/-- Lines 179-182 of db.ts: the free-text search clause of the residual
filter.  The query is lowercased; it is matched against the lowercased
`word` but against the raw `persianTranslation`. -/
def searchKeeps : Option String → Flashcard → Bool
  | none, _ => true
  | some s, f =>
    if s = "" then true
    else jsIncludes (jsToLower f.word) (jsToLower s) || jsIncludes f.persianTranslation (jsToLower s)

/-- Lines 174-184 of db.ts: the in-memory residual filter pass, all clauses
conjunctive. -/
def matchesCriteria (cr : Criteria) (f : Flashcard) : Bool :=
  (!isActive cr.articleId || f.articleId = strOf cr.articleId) &&
  (!isActive cr.type || f.type = strOf cr.type) &&
  (!isActive cr.level || f.level = strOf cr.level) &&
  searchKeeps cr.search f

/-- Stable insertion of a card into a list sorted ascending by headword
(models the comparator `a.word.localeCompare(b.word)`; string order stands
in for the locale order). -/
def insertByWord (f : Flashcard) : List Flashcard → List Flashcard
  | [] => [f]
  | g :: t => if strLe f.word g.word then f :: g :: t else g :: insertByWord f t

/-- Line 186 of db.ts: stable sort ascending by headword (JS `Array.sort`
is stable). -/
def sortByWord : List Flashcard → List Flashcard
  | [] => []
  | f :: t => insertByWord f (sortByWord t)

/-- Lines 188-191 of db.ts: `start = offset || 0`; `end = limit ? start +
limit : length` (a zero limit is falsy); `results.slice(start, end)`. -/
def sliceResults (cr : Criteria) (results : List Flashcard) : List Flashcard :=
  let start := cr.offset.getD 0
  let stop := match cr.limit with
    | some l => if l = 0 then results.length else start + l
    | none => results.length
  (results.take stop).drop start

/-- Lines 153-192 of db.ts: `queryFlashcards` — index seed, residual
filter, sort by headword, offset/limit slice. -/
def queryFlashcards (store : Store) (cr : Criteria) : List Flashcard :=
  sliceResults cr (sortByWord ((seedResults store.flashcards cr).filter (matchesCriteria cr)))

/-- The naive algorithm the spec describes `queryFlashcards` to refine:
scan every flashcard, keep those satisfying all given criteria
conjunctively, sort by headword, slice by offset/limit.  This is NOT a
definition taken from the source; it is kept for the refinement claim. -/
def queryFlashcardsNaive (store : Store) (cr : Criteria) : List Flashcard :=
  sliceResults cr (sortByWord (store.flashcards.filter (matchesCriteria cr)))

/-- Stable insertion of a card into a list sorted ascending by
`nextReview` (the `by-review` index key order). -/
def insertByReview (f : Flashcard) : List Flashcard → List Flashcard
  | [] => [f]
  | g :: t => if f.nextReview ≤ g.nextReview then f :: g :: t else g :: insertByReview f t

/-- Stable sort ascending by `nextReview`: the order in which an index
range query returns records (index key, then primary key). -/
def sortByReview : List Flashcard → List Flashcard
  | [] => []
  | f :: t => insertByReview f (sortByReview t)

/-- Lines 134-140 of db.ts: all cards with `nextReview ≤ now` via the
`by-review` index (ascending by review time), then `slice(0, limit)`. -/
def getDueFlashcards (now : Nat) (store : Store) (limit : Nat) : List Flashcard :=
  (sortByReview (store.flashcards.filter (fun f => f.nextReview ≤ now))).take limit

/-- Lines 142-146 of db.ts: all cards at stage 0 via the `by-stage` index
(single key, hence primary-key order), then `slice(0, limit)`. -/
def getNewFlashcards (store : Store) (limit : Nat) : List Flashcard :=
  (store.flashcards.filter (fun f => f.stage = 0)).take limit

/-- The three study modes of `getCardsForSession`. -/
inductive SessionMode where
  | due
  | new
  | all
deriving DecidableEq

/-- Lines 210-212 of AppContext.tsx: the residual type/level/articleId
filters applied after retrieval, each skipped when absent or "all". -/
def sessionResidual (filters : Criteria) (cards : List Flashcard) : List Flashcard :=
  let cards := if isActive filters.type then cards.filter (fun c => c.type = strOf filters.type) else cards
  let cards := if isActive filters.level then cards.filter (fun c => c.level = strOf filters.level) else cards
  if isActive filters.articleId then cards.filter (fun c => c.articleId = strOf filters.articleId) else cards

/-- Lines 199-216 of AppContext.tsx: `getCardsForSession`.  The final
`cards.sort(() => Math.random() - 0.5)` produces some rearrangement of the
list; it is modelled by an explicit `shuffle` parameter, about which the
theorems assume only that it permutes its input. -/
def getCardsForSession (shuffle : List Flashcard → List Flashcard) (now : Nat)
    (store : Store) (mode : SessionMode) (filters : Criteria) (limit : Nat) : List Flashcard :=
  let cards := match mode with
    | SessionMode.due => getDueFlashcards now store limit
    | SessionMode.new => getNewFlashcards store limit
    | SessionMode.all => queryFlashcards store { filters with limit := some limit }
  shuffle (sessionResidual filters cards)

/-! ### SRS scheduler (AppContext.tsx `markCardReviewed`) -/

/-- db.ts lines 129-132: `get('flashcards', id)`. -/
def getFlashcard (store : Store) (cardId : String) : Option Flashcard :=
  getById Flashcard.id cardId store.flashcards

/-- Lines 173-185 of AppContext.tsx: the updated record computed by
`markCardReviewed`: on `quality >= 3` the stage is incremented and the
interval doubles (`2^newStage` days), otherwise the stage resets to 0 with
a zero interval; only `stage` and `nextReview` are replaced. -/
def reviewedCard (now : Nat) (quality : Int) (card : Flashcard) : Flashcard :=
  let newStage := if 3 ≤ quality then card.stage + 1 else 0
  let intervalDays := if 3 ≤ quality then 2 ^ newStage else 0
  let nextReview := now + intervalDays * (24 * 60 * 60 * 1000)
  { card with stage := newStage, nextReview := nextReview }

/-- Lines 169-187 of AppContext.tsx: look the card up, compute the
reviewed record, and persist it via `updateFlashcard` (a `put`). -/
def markCardReviewed (now : Nat) (store : Store) (cardId : String) (quality : Int) : Store :=
  match getFlashcard store cardId with
  | none => store
  | some card =>
    { store with flashcards := putByKey Flashcard.id (reviewedCard now quality card) store.flashcards }

/-! ### Word approval (AppContext.tsx) -/

/-- db.ts lines 104-108: fetch the segments of the article via the
`by-article` index and `find` the one at the requested position. -/
def getSegment (store : Store) (articleId : String) (index : Nat) : Option Segment :=
  (store.segments.filter (fun s => s.articleId = articleId)).find? (fun s => s.index = index)

/-- The flashcard built from a WordAnalysis in `approveWordsForSegment` /
`addCustomWordToSegment`: the analysis spread plus a fresh id, the article
id, `nextReview: Date.now()`, `stage: 0`, `createdAt: Date.now()`. -/
def mkFlashcard (cardId articleId : String) (now : Nat) (w : WordAnalysis) : Flashcard :=
  { type := w.type, word := w.word, «lemma» := w.«lemma», phonetic := w.phonetic,
    partOfSpeech := w.partOfSpeech, collocations := w.collocations, context := w.context,
    level := w.level, definition := w.definition, persianTranslation := w.persianTranslation,
    exampleSentence := w.exampleSentence, id := cardId, articleId := articleId,
    nextReview := now, stage := 0, createdAt := now }

/-- Lines 123-142 of AppContext.tsx: build a flashcard for every analyzed
word whose lemma was selected (fresh ids supplied positionally by `ids`),
bulk-put them, and overwrite the segment's `approvedWordIds` with the
selected lemmas. -/
def approveWordsForSegment (now : Nat) (ids : Nat → String) (store : Store)
    (articleId : String) (segmentIndex : Nat) (selectedLemmas : List String) : Store :=
  match getSegment store articleId segmentIndex with
  | none => store
  | some seg =>
    let picked := seg.analyzedWords.filter (fun w => selectedLemmas.contains w.«lemma»)
    let newCards := picked.enum.map (fun p => mkFlashcard (ids p.1) articleId now p.2)
    { store with
        flashcards := putAll Flashcard.id newCards store.flashcards,
        segments := putByKey Segment.id { seg with approvedWordIds := selectedLemmas } store.segments }

/-- Lines 144-167 of AppContext.tsx: if no analyzed word of the segment has
the new word's lemma, append the analysis to `analyzedWords` and its lemma
to `approvedWordIds` in one segment update; in either case put a fresh
flashcard for the word.  When the segment is absent, nothing happens (the
early `return` precedes the card creation). -/
def addCustomWordToSegment (now : Nat) (cardId : String) (store : Store)
    (articleId : String) (segmentIndex : Nat) (analysis : WordAnalysis) : Store :=
  match getSegment store articleId segmentIndex with
  | none => store
  | some seg =>
    let store1 :=
      if seg.analyzedWords.any (fun w => w.«lemma» = analysis.«lemma») then store
      else { store with
               segments := putByKey Segment.id
                 { seg with analyzedWords := seg.analyzedWords ++ [analysis],
                            approvedWordIds := seg.approvedWordIds ++ [analysis.«lemma»] }
                 store.segments }
    { store1 with
        flashcards := putAll Flashcard.id [mkFlashcard cardId articleId now analysis] store1.flashcards }

/-- One word-approval operation, with its ambient clock and fresh ids. -/
inductive SegOp where
  | approve (now : Nat) (ids : Nat → String) (articleId : String)
      (segmentIndex : Nat) (selectedLemmas : List String)
  | addCustom (now : Nat) (cardId : String) (articleId : String)
      (segmentIndex : Nat) (analysis : WordAnalysis)

/-- Run one word-approval operation on the store. -/
def applyOp (store : Store) : SegOp → Store
  | SegOp.approve now ids articleId segmentIndex selectedLemmas =>
      approveWordsForSegment now ids store articleId segmentIndex selectedLemmas
  | SegOp.addCustom now cardId articleId segmentIndex analysis =>
      addCustomWordToSegment now cardId store articleId segmentIndex analysis

/-- Run a sequence of word-approval operations, oldest first. -/
def applyOps (store : Store) (ops : List SegOp) : Store :=
  ops.foldl applyOp store

/-- The segment invariant of the spec: every approved lemma is the lemma of
some analyzed word of the same segment. -/
def segmentInvariant (s : Segment) : Prop :=
  ∀ l ∈ s.approvedWordIds, ∃ w ∈ s.analyzedWords, w.«lemma» = l

instance (s : Segment) : Decidable (segmentInvariant s) := by
  unfold segmentInvariant; infer_instance

/-- The store-wide form of the segment invariant. -/
def segmentsInvariant (store : Store) : Prop :=
  ∀ s ∈ store.segments, segmentInvariant s

instance (store : Store) : Decidable (segmentsInvariant store) := by
  unfold segmentsInvariant; infer_instance

/-- An `approve` call is well-formed when each selected lemma belongs to an
analyzed word of the segment it targets; `addCustom` calls always are. -/
def opOk (store : Store) : SegOp → Prop
  | SegOp.approve _ _ articleId segmentIndex selectedLemmas =>
      ∀ seg, getSegment store articleId segmentIndex = some seg →
        ∀ l ∈ selectedLemmas, ∃ w ∈ seg.analyzedWords, w.«lemma» = l
  | SegOp.addCustom _ _ _ _ _ => True

/-- Every operation of the sequence is well-formed in the store it runs
against. -/
def validOps : Store → List SegOp → Prop
  | _, [] => True
  | store, op :: rest => opOk store op ∧ validOps (applyOp store op) rest

/-! ### Backup/restore protocol (db.ts `exportDatabase` / `importDatabase`) -/

/-- The backup document of db.ts lines 197-213; entity arrays are optional
because `importDatabase` checks each for presence before restoring it. -/
structure BackupDoc where
  version : Nat
  timestamp : Nat
  articles : Option (List Article)
  segments : Option (List Segment)
  flashcards : Option (List Flashcard)
  settings : Option AppSettings
  collections : Option (List Collection)

/-- Lines 197-213 of db.ts: one consistent snapshot of every store; the
settings entry is the record under the fixed key and may be absent. -/
def exportDatabase (now : Nat) (store : Store) : BackupDoc :=
  { version := 1, timestamp := now,
    articles := some store.articles, segments := some store.segments,
    flashcards := some store.flashcards, settings := store.settings,
    collections := some store.collections }

/-- Lines 219-241 of db.ts: for each entity array present in the document,
`put` every record; the settings record, if present, is stored back under
the fixed key.  Absent arrays leave their store untouched. -/
def importDatabase (store : Store) (d : BackupDoc) : Store :=
  { articles := match d.articles with
      | some l => putAll Article.id l store.articles
      | none => store.articles,
    segments := match d.segments with
      | some l => putAll Segment.id l store.segments
      | none => store.segments,
    flashcards := match d.flashcards with
      | some l => putAll Flashcard.id l store.flashcards
      | none => store.flashcards,
    settings := match d.settings with
      | some s => some s
      | none => store.settings,
    collections := match d.collections with
      | some l => putAll Collection.id l store.collections
      | none => store.collections }

/-! ### Concrete instances used by the closed witness theorems -/

/-- A sample flashcard of article a1, due at time 5, stage 0. -/
def exCardA : Flashcard :=
  ⟨"vocabulary", "banana", "banana", none, none, [], "ctx", "B1", "def", "t1", "ex",
    "c1", "a1", 5, 0, 1⟩

/-- A sample flashcard of article a2, due at time 20, stage 1. -/
def exCardB : Flashcard :=
  ⟨"grammar", "apple", "apple", none, none, [], "ctx", "B2", "def", "t2", "ex",
    "c2", "a2", 20, 1, 2⟩

/-- A sample flashcard of article a1, due at time 9, stage 2. -/
def exCardC : Flashcard :=
  ⟨"vocabulary", "cherry", "cherry", none, none, [], "ctx", "A1", "def", "t3", "ex",
    "c3", "a1", 9, 2, 3⟩

/-- A sample article record. -/
def exArticle : Article := ⟨"a1", "Title", [], none, 0⟩

/-- A sample segment record of article a1 at position 0, with nothing
analyzed or approved yet. -/
def exSegment : Segment := ⟨"s1", "a1", 0, "Part 1", "text", [], [], none, false⟩

/-- A sample settings record. -/
def exSettings : AppSettings :=
  ⟨"gemini-2.5-flash", "gemini-2.5-flash", "tts", "pron", "gemini", 1200, ["vocabulary"]⟩

/-- A sample collection record. -/
def exCollection : Collection := ⟨"col1", "Books", none, none⟩

/-- A sample store populated with all five entity kinds. -/
def exStore : Store :=
  ⟨[exArticle], [exSegment], [exCardA, exCardB, exCardC], some exSettings, [exCollection]⟩

/-- A flashcard not present in `exStore`, used as an imported record. -/
def exCardNew : Flashcard :=
  ⟨"vocabulary", "kiwi", "kiwi", none, none, [], "ctx", "A2", "def", "t4", "ex",
    "f2", "a1", 0, 0, 0⟩

/-- A backup document carrying only a flashcard array. -/
def exDoc : BackupDoc := ⟨1, 0, none, none, some [exCardNew], none, none⟩

/-- A sample custom word analysis. -/
def exWA : WordAnalysis :=
  ⟨"vocabulary", "dog", "dog", none, none, [], "ctx", "A1", "def", "t5", "ex"⟩

/-- A flashcard whose translation contains upper-case Latin text; used to
exercise the search filter. -/
def cardC7 : Flashcard :=
  ⟨"vocabulary", "x", "x", none, none, [], "ctx", "B1", "def", "ABC", "ex",
    "c7", "a7", 0, 0, 0⟩

/-! ### Lemmas about the keyed-list primitives -/

section KeyedList

variable {α : Type} (key : α → String)

theorem mem_putByKey_of_ne {r x : α} {l : List α} (hr : r ∈ l) (hne : key r ≠ key x) :
    r ∈ putByKey key x l := by
  induction l with
  | nil => cases hr
  | cons y ys ih =>
    rcases List.mem_cons.mp hr with hr | hr
    · subst hr
      unfold putByKey
      rw [if_neg hne]
      exact List.mem_cons_self ..
    · unfold putByKey
      by_cases h : key y = key x
      · rw [if_pos h]; exact List.mem_cons_of_mem _ hr
      · rw [if_neg h]; exact List.mem_cons_of_mem _ (ih hr)

theorem mem_of_mem_putByKey {y x : α} {l : List α} (h : y ∈ putByKey key x l) :
    y = x ∨ y ∈ l := by
  induction l with
  | nil =>
    unfold putByKey at h
    exact Or.inl (List.mem_singleton.mp h)
  | cons z zs ih =>
    unfold putByKey at h
    by_cases hz : key z = key x
    · rw [if_pos hz] at h
      rcases List.mem_cons.mp h with h | h
      · exact Or.inl h
      · exact Or.inr (List.mem_cons_of_mem _ h)
    · rw [if_neg hz] at h
      rcases List.mem_cons.mp h with h | h
      · exact Or.inr (h ▸ List.mem_cons_self ..)
      · rcases ih h with h' | h'
        · exact Or.inl h'
        · exact Or.inr (List.mem_cons_of_mem _ h')

theorem getById_putByKey_self (x : α) (l : List α) :
    getById key (key x) (putByKey key x l) = some x := by
  induction l with
  | nil => simp [putByKey, getById, List.find?]
  | cons y ys ih =>
    unfold putByKey
    by_cases hy : key y = key x
    · rw [if_pos hy]; simp [getById, List.find?]
    · rw [if_neg hy]
      simpa [getById, List.find?, hy] using ih

theorem getById_putByKey_of_ne {k : String} {x : α} (l : List α) (hk : k ≠ key x) :
    getById key k (putByKey key x l) = getById key k l := by
  induction l with
  | nil => simp [putByKey, getById, List.find?, Ne.symm hk]
  | cons y ys ih =>
    unfold putByKey
    by_cases hy : key y = key x
    · rw [if_pos hy]
      have hyk : ¬ key y = k := by rw [hy]; exact fun h => hk h.symm
      simp [getById, List.find?, hyk, Ne.symm hk]
    · rw [if_neg hy]
      by_cases hyk : key y = k
      · simp [getById, List.find?, hyk]
      · simpa [getById, List.find?, hyk] using ih

theorem putByKey_of_key_not_mem {x : α} {l : List α} (h : ∀ y ∈ l, key y ≠ key x) :
    putByKey key x l = l ++ [x] := by
  induction l with
  | nil => rfl
  | cons y ys ih =>
    unfold putByKey
    rw [if_neg (h y (List.mem_cons_self ..))]
    rw [ih (fun z hz => h z (List.mem_cons_of_mem _ hz))]
    rfl

theorem length_putByKey_of_mem {x : α} {l : List α} (h : ∃ y ∈ l, key y = key x) :
    (putByKey key x l).length = l.length := by
  induction l with
  | nil => rcases h with ⟨y, hy, _⟩; cases hy
  | cons z zs ih =>
    unfold putByKey
    by_cases hz : key z = key x
    · rw [if_pos hz]; rfl
    · rw [if_neg hz]
      rcases h with ⟨y, hy, hyx⟩
      rcases List.mem_cons.mp hy with hy | hy
      · exact absurd (hy ▸ hyx) hz
      · simp [ih ⟨y, hy, hyx⟩]

theorem putAll_of_keys_disjoint {docs l : List α} (hnod : (docs.map key).Nodup)
    (hdisj : ∀ x ∈ docs, ∀ y ∈ l, key y ≠ key x) :
    putAll key docs l = l ++ docs := by
  induction docs generalizing l with
  | nil => simp [putAll]
  | cons d ds ih =>
    rw [List.map_cons, List.nodup_cons] at hnod
    unfold putAll
    rw [List.foldl_cons]
    rw [putByKey_of_key_not_mem key (fun y hy => hdisj d (List.mem_cons_self ..) y hy)]
    have hstep : putAll key ds (l ++ [d]) = (l ++ [d]) ++ ds := by
      refine ih hnod.2 ?_
      intro x hx y hy
      rcases List.mem_append.mp hy with hy | hy
      · exact hdisj x (List.mem_cons_of_mem _ hx) y hy
      · have hy := List.mem_singleton.mp hy
        subst hy
        intro hcontra
        exact hnod.1 (hcontra ▸ List.mem_map_of_mem key hx)
    calc List.foldl (fun acc a => putByKey key a acc) (l ++ [d]) ds
        = putAll key ds (l ++ [d]) := rfl
      _ = (l ++ [d]) ++ ds := hstep
      _ = l ++ d :: ds := by simp

theorem mem_putAll_of_key_not_mem {r : α} {docs l : List α}
    (hr : r ∈ l) (hk : key r ∉ docs.map key) :
    r ∈ putAll key docs l := by
  induction docs generalizing l with
  | nil => exact hr
  | cons d ds ih =>
    rw [List.map_cons] at hk
    unfold putAll
    rw [List.foldl_cons]
    refine ih ?_ (fun h => hk (List.mem_cons_of_mem _ h))
    exact mem_putByKey_of_ne key hr (fun h => hk (h ▸ List.mem_cons_self ..))

theorem getById_putAll_of_key_not_mem {k : String} {docs : List α} (l : List α)
    (hk : k ∉ docs.map key) :
    getById key k (putAll key docs l) = getById key k l := by
  induction docs generalizing l with
  | nil => rfl
  | cons d ds ih =>
    rw [List.map_cons] at hk
    unfold putAll
    rw [List.foldl_cons]
    have h1 : getById key k (putAll key ds (putByKey key d l)) =
        getById key k (putByKey key d l) :=
      ih _ (fun h => hk (List.mem_cons_of_mem _ h))
    have h2 : getById key k (putByKey key d l) = getById key k l :=
      getById_putByKey_of_ne key l (fun h => hk (h ▸ List.mem_cons_self ..))
    exact h1.trans h2

theorem getById_putAll_self {x : α} {docs : List α} (l : List α)
    (hnod : (docs.map key).Nodup) (hx : x ∈ docs) :
    getById key (key x) (putAll key docs l) = some x := by
  induction docs generalizing l with
  | nil => cases hx
  | cons d ds ih =>
    rw [List.map_cons, List.nodup_cons] at hnod
    unfold putAll
    rw [List.foldl_cons]
    rcases List.mem_cons.mp hx with hx | hx
    · subst hx
      have h1 : getById key (key x) (putAll key ds (putByKey key x l)) =
          getById key (key x) (putByKey key x l) :=
        getById_putAll_of_key_not_mem key _ hnod.1
      exact h1.trans (getById_putByKey_self key x l)
    · exact ih _ hnod.2 hx

theorem mem_of_mem_putAll {y : α} {docs l : List α} (h : y ∈ putAll key docs l) :
    y ∈ docs ∨ y ∈ l := by
  induction docs generalizing l with
  | nil => exact Or.inr h
  | cons d ds ih =>
    unfold putAll at h
    rw [List.foldl_cons] at h
    rcases ih h with h' | h'
    · exact Or.inl (List.mem_cons_of_mem _ h')
    · rcases mem_of_mem_putByKey key h' with h'' | h''
      · exact Or.inl (h'' ▸ List.mem_cons_self ..)
      · exact Or.inr h''

end KeyedList

/-! ### Lemmas about the comparator and the sorts -/

theorem charsLe_total : ∀ (a b : List Char), charsLe a b = true ∨ charsLe b a = true
  | [], _ => Or.inl rfl
  | _ :: _, [] => Or.inr rfl
  | a :: as, b :: bs => by
    unfold charsLe
    by_cases h : a.toNat = b.toNat
    · rw [if_pos h, if_pos h.symm]
      exact charsLe_total as bs
    · rw [if_neg h, if_neg (fun h' => h h'.symm)]
      rcases Nat.le_total a.toNat b.toNat with hle | hle
      · exact Or.inl (by simpa using hle)
      · exact Or.inr (by simpa using hle)

theorem charsLe_trans : ∀ (a b c : List Char),
    charsLe a b = true → charsLe b c = true → charsLe a c = true
  | [], _, _, _, _ => rfl
  | _ :: _, [], _, hab, _ => by simp [charsLe] at hab
  | _ :: _, _ :: _, [], _, hbc => by simp [charsLe] at hbc
  | x :: xs, y :: ys, z :: zs, hab, hbc => by
    unfold charsLe at hab hbc ⊢
    by_cases hxy : x.toNat = y.toNat <;> by_cases hyz : y.toNat = z.toNat
    · rw [if_pos hxy] at hab
      rw [if_pos hyz] at hbc
      rw [if_pos (hxy.trans hyz)]
      exact charsLe_trans xs ys zs hab hbc
    · rw [if_pos hxy] at hab
      rw [if_neg hyz] at hbc
      rw [if_neg (fun h => hyz (hxy ▸ h))]
      simp only [decide_eq_true_eq] at hbc ⊢
      omega
    · rw [if_neg hxy] at hab
      rw [if_pos hyz] at hbc
      rw [if_neg (fun h => hxy (hyz ▸ h))]
      simp only [decide_eq_true_eq] at hab ⊢
      omega
    · rw [if_neg hxy] at hab
      rw [if_neg hyz] at hbc
      simp only [decide_eq_true_eq] at hab hbc
      rw [if_neg (by omega)]
      simp only [decide_eq_true_eq]
      omega

theorem strLe_total (a b : String) : strLe a b = true ∨ strLe b a = true :=
  charsLe_total a.data b.data

theorem strLe_trans {a b c : String} (hab : strLe a b = true) (hbc : strLe b c = true) :
    strLe a c = true :=
  charsLe_trans a.data b.data c.data hab hbc

theorem insertByWord_perm (f : Flashcard) : ∀ (l : List Flashcard),
    (insertByWord f l).Perm (f :: l)
  | [] => List.Perm.refl _
  | g :: t => by
    unfold insertByWord
    by_cases h : strLe f.word g.word
    · rw [if_pos h]
    · rw [if_neg h]
      exact ((insertByWord_perm f t).cons g).trans (List.Perm.swap f g t)

theorem sortByWord_perm : ∀ (l : List Flashcard), (sortByWord l).Perm l
  | [] => List.Perm.refl _
  | f :: t => by
    unfold sortByWord
    exact (insertByWord_perm f (sortByWord t)).trans ((sortByWord_perm t).cons f)

theorem pairwise_insertByWord (f : Flashcard) : ∀ (l : List Flashcard),
    l.Pairwise wordLe → (insertByWord f l).Pairwise wordLe
  | [], _ => List.pairwise_singleton ..
  | g :: t, h => by
    rw [List.pairwise_cons] at h
    unfold insertByWord
    by_cases hfg : strLe f.word g.word
    · rw [if_pos hfg]
      refine List.Pairwise.cons ?_ (List.Pairwise.cons h.1 h.2)
      intro b hb
      rcases List.mem_cons.mp hb with hb | hb
      · exact hb ▸ hfg
      · exact strLe_trans hfg (h.1 b hb)
    · rw [if_neg hfg]
      have hgf : strLe g.word f.word = true := by
        rcases strLe_total f.word g.word with h' | h'
        · exact absurd h' hfg
        · exact h'
      refine List.Pairwise.cons ?_ (pairwise_insertByWord f t h.2)
      intro b hb
      rcases List.mem_cons.mp ((insertByWord_perm f t).mem_iff.mp hb) with hb | hb
      · exact hb ▸ hgf
      · exact h.1 b hb

theorem pairwise_sortByWord : ∀ (l : List Flashcard), (sortByWord l).Pairwise wordLe
  | [] => List.Pairwise.nil
  | f :: t => pairwise_insertByWord f (sortByWord t) (pairwise_sortByWord t)

theorem insertByReview_perm (f : Flashcard) : ∀ (l : List Flashcard),
    (insertByReview f l).Perm (f :: l)
  | [] => List.Perm.refl _
  | g :: t => by
    unfold insertByReview
    by_cases h : f.nextReview ≤ g.nextReview
    · rw [if_pos h]
    · rw [if_neg h]
      exact ((insertByReview_perm f t).cons g).trans (List.Perm.swap f g t)

theorem sortByReview_perm : ∀ (l : List Flashcard), (sortByReview l).Perm l
  | [] => List.Perm.refl _
  | f :: t => by
    unfold sortByReview
    exact (insertByReview_perm f (sortByReview t)).trans ((sortByReview_perm t).cons f)

/-! ### Lemmas about the query engine -/

theorem sliceResults_none (cr : Criteria) (hoff : cr.offset = none) (hlim : cr.limit = none)
    (results : List Flashcard) : sliceResults cr results = results := by
  simp [sliceResults, hoff, hlim]

theorem seedResults_filter (cards : List Flashcard) (cr : Criteria) :
    (seedResults cards cr).filter (matchesCriteria cr) = cards.filter (matchesCriteria cr) := by
  unfold seedResults
  by_cases ha : isActive cr.articleId
  · rw [if_pos ha, List.filter_filter]
    refine List.filter_congr ?_
    intro f _
    cases hm : matchesCriteria cr f
    · simp
    · have hfa : f.articleId = strOf cr.articleId := by
        have h' := hm
        simp only [matchesCriteria, ha, Bool.not_true, Bool.false_or,
          Bool.and_eq_true, decide_eq_true_eq] at h'
        exact h'.1.1.1
      simp [hfa]
  · rw [if_neg ha]
    by_cases ht : isActive cr.type
    · rw [if_pos ht, List.filter_filter]
      refine List.filter_congr ?_
      intro f _
      cases hm : matchesCriteria cr f
      · simp
      · have hft : f.type = strOf cr.type := by
          have h' := hm
          simp only [matchesCriteria, ht, Bool.not_true, Bool.false_or,
            Bool.and_eq_true, decide_eq_true_eq] at h'
          exact h'.1.1.2
        simp [hft]
    · rw [if_neg ht]
      by_cases hl : isActive cr.level
      · rw [if_pos hl, List.filter_filter]
        refine List.filter_congr ?_
        intro f _
        cases hm : matchesCriteria cr f
        · simp
        · have hfl : f.level = strOf cr.level := by
            have h' := hm
            simp only [matchesCriteria, hl, Bool.not_true, Bool.false_or,
              Bool.and_eq_true, decide_eq_true_eq] at h'
            exact h'.1.2
          simp [hfl]
      · rw [if_neg hl]

theorem matchesCriteria_articleId (A : String) (h1 : A ≠ "all") (h2 : A ≠ "") (f : Flashcard) :
    matchesCriteria { articleId := some A } f = decide (f.articleId = A) := by
  simp [matchesCriteria, isActive, searchKeeps, strOf, h1, h2]

/-- Claim C10: `queryFlashcards` is independent of the index seed — it
computes exactly what the naive algorithm computes: scan every flashcard,
keep those satisfying all given criteria conjunctively, sort by headword,
slice by offset/limit. -/
theorem C10_queryFlashcards_refines_naive (store : Store) (cr : Criteria) :
    queryFlashcards store cr = queryFlashcardsNaive store cr := by
  unfold queryFlashcards queryFlashcardsNaive
  rw [seedResults_filter]

/-- Claim C2: with every other filter absent, `queryFlashcards` on an
article id returns exactly the flashcards of that article, sorted ascending
by headword.  The hypotheses exclude the reserved sentinel "all" and the
empty string, neither of which is an article id. -/
theorem C2_queryFlashcards_articleId_exact (store : Store) (A : String)
    (h1 : A ≠ "all") (h2 : A ≠ "") :
    (∀ f, f ∈ queryFlashcards store { articleId := some A } ↔
        f ∈ store.flashcards ∧ f.articleId = A) ∧
    (queryFlashcards store { articleId := some A }).Pairwise wordLe := by
  have hq : queryFlashcards store { articleId := some A } =
      sortByWord (store.flashcards.filter (fun f => decide (f.articleId = A))) := by
    unfold queryFlashcards
    rw [seedResults_filter, sliceResults_none _ rfl rfl]
    congr 1
    refine List.filter_congr ?_
    intro f _
    exact matchesCriteria_articleId A h1 h2 f
  constructor
  · intro f
    rw [hq, (sortByWord_perm _).mem_iff, List.mem_filter]
    simp
  · rw [hq]
    exact pairwise_sortByWord _

theorem flatten_take_drop_chunks (l : List Flashcard) (L : Nat) :
    ∀ (k : Nat),
      ((List.range k).map (fun i => (l.take (i * L + L)).drop (i * L))).flatten
        = l.take (k * L)
  | 0 => by simp
  | k + 1 => by
    rw [List.range_succ, List.map_append, List.flatten_append]
    rw [flatten_take_drop_chunks l L k]
    simp only [List.map_cons, List.map_nil, List.flatten_cons, List.flatten_nil,
      List.append_nil]
    rw [List.drop_take]
    have harith : k * L + L - k * L = L := by omega
    rw [harith, ← List.take_add]
    congr 1
    ring

/-- Claim C6: for a fixed filter set and positive page size L,
concatenating the pages at offsets 0, L, 2L, … (any number of pages large
enough that the next page would be empty) reproduces the unpaginated result
exactly — same records, same order, no duplicates, no omissions. -/
theorem C6_queryFlashcards_pagination (store : Store) (cr : Criteria) (L k : Nat)
    (hL : 0 < L)
    (hk : (queryFlashcards store { cr with offset := none, limit := none }).length ≤ k * L) :
    ((List.range k).map (fun i =>
        queryFlashcards store { cr with offset := some (i * L), limit := some L })).flatten
      = queryFlashcards store { cr with offset := none, limit := none } := by
  have hbase : ∀ (o : Option Nat) (lim : Option Nat),
      sortByWord ((seedResults store.flashcards { cr with offset := o, limit := lim }).filter
          (matchesCriteria { cr with offset := o, limit := lim }))
        = sortByWord ((seedResults store.flashcards cr).filter (matchesCriteria cr)) :=
    fun _ _ => rfl
  have hfull : queryFlashcards store { cr with offset := none, limit := none } =
      sortByWord ((seedResults store.flashcards cr).filter (matchesCriteria cr)) := by
    unfold queryFlashcards
    rw [hbase, sliceResults_none _ rfl rfl]
  have hpage : ∀ (i : Nat),
      queryFlashcards store { cr with offset := some (i * L), limit := some L }
        = ((sortByWord ((seedResults store.flashcards cr).filter
              (matchesCriteria cr))).take (i * L + L)).drop (i * L) := by
    intro i
    unfold queryFlashcards
    rw [hbase]
    unfold sliceResults
    simp only [Option.getD_some]
    rw [if_neg (by omega : ¬ L = 0)]
  calc ((List.range k).map (fun i =>
          queryFlashcards store { cr with offset := some (i * L), limit := some L })).flatten
      = ((List.range k).map (fun i =>
          ((sortByWord ((seedResults store.flashcards cr).filter
              (matchesCriteria cr))).take (i * L + L)).drop (i * L))).flatten := by
        congr 1
        exact List.map_congr_left (fun i _ => hpage i)
    _ = (sortByWord ((seedResults store.flashcards cr).filter
          (matchesCriteria cr))).take (k * L) := flatten_take_drop_chunks _ L k
    _ = queryFlashcards store { cr with offset := none, limit := none } := by
        rw [hfull]
        refine List.take_of_length_le ?_
        rw [← hfull]
        exact hk

/-! ### Lemmas about the scheduler -/

theorem getById_eq_some_key {α : Type} (key : α → String) {k : String} {l : List α} {x : α}
    (h : getById key k l = some x) : key x = k := by
  unfold getById at h
  have h' := List.find?_some (p := fun a => decide (key a = k)) h
  exact of_decide_eq_true h'

theorem mem_of_getById {α : Type} (key : α → String) {k : String} {l : List α} {x : α}
    (h : getById key k l = some x) : x ∈ l := by
  unfold getById at h
  exact List.mem_of_find?_eq_some h

/-- Claim C1: for a stored card at stage s, a review of quality ≥ 3 moves
the card to stage s+1 with `nextReview = now + 2^(s+1)` days (in
milliseconds), and a review of quality < 3 moves it to stage 0 with
`nextReview = now`. -/
theorem C1_markCardReviewed_schedule (now : Nat) (store : Store) (cardId : String)
    (q : Int) (card : Flashcard) (hc : getFlashcard store cardId = some card) :
    ∃ card', getFlashcard (markCardReviewed now store cardId q) cardId = some card' ∧
      (3 ≤ q → card'.stage = card.stage + 1 ∧
        card'.nextReview = now + 2 ^ (card.stage + 1) * 86400000) ∧
      (q < 3 → card'.stage = 0 ∧ card'.nextReview = now) := by
  have hid : card.id = cardId := getById_eq_some_key Flashcard.id hc
  refine ⟨reviewedCard now q card, ?_, ?_, ?_⟩
  · simp only [markCardReviewed, hc]
    show getById Flashcard.id cardId
      (putByKey Flashcard.id (reviewedCard now q card) store.flashcards) = _
    have h := getById_putByKey_self Flashcard.id (reviewedCard now q card) store.flashcards
    rwa [show Flashcard.id (reviewedCard now q card) = cardId from hid] at h
  · intro h3
    constructor
    · show (reviewedCard now q card).stage = _
      simp [reviewedCard, h3]
    · show (reviewedCard now q card).nextReview = _
      simp only [reviewedCard, if_pos h3]
  · intro h3
    have h3' : ¬ 3 ≤ q := by omega
    constructor
    · show (reviewedCard now q card).stage = _
      simp [reviewedCard, h3']
    · show (reviewedCard now q card).nextReview = _
      simp [reviewedCard, h3']

/-- Claim C8: `markCardReviewed` changes only the `stage` and `nextReview`
fields of the reviewed card's record; every other field of that card, every
other flashcard, and every other object store are unchanged. -/
theorem C8_markCardReviewed_frame (now : Nat) (store : Store) (cardId : String)
    (q : Int) (card : Flashcard) (hc : getFlashcard store cardId = some card) :
    (markCardReviewed now store cardId q).articles = store.articles ∧
    (markCardReviewed now store cardId q).segments = store.segments ∧
    (markCardReviewed now store cardId q).settings = store.settings ∧
    (markCardReviewed now store cardId q).collections = store.collections ∧
    (markCardReviewed now store cardId q).flashcards.length = store.flashcards.length ∧
    (∀ c ∈ store.flashcards, c.id ≠ cardId →
      c ∈ (markCardReviewed now store cardId q).flashcards) ∧
    (∀ c ∈ (markCardReviewed now store cardId q).flashcards, c.id ≠ cardId →
      c ∈ store.flashcards) ∧
    ∃ card', getFlashcard (markCardReviewed now store cardId q) cardId = some card' ∧
      card'.id = card.id ∧ card'.articleId = card.articleId ∧ card'.type = card.type ∧
      card'.word = card.word ∧ card'.«lemma» = card.«lemma» ∧
      card'.phonetic = card.phonetic ∧ card'.partOfSpeech = card.partOfSpeech ∧
      card'.collocations = card.collocations ∧ card'.context = card.context ∧
      card'.level = card.level ∧ card'.definition = card.definition ∧
      card'.persianTranslation = card.persianTranslation ∧
      card'.exampleSentence = card.exampleSentence ∧ card'.createdAt = card.createdAt := by
  have hid : card.id = cardId := getById_eq_some_key Flashcard.id hc
  have hmem : card ∈ store.flashcards := mem_of_getById Flashcard.id hc
  have hkey : Flashcard.id (reviewedCard now q card) = cardId := hid
  refine ⟨?_, ?_, ?_, ?_, ?_, ?_, ?_, ?_⟩
  · simp only [markCardReviewed, hc]
  · simp only [markCardReviewed, hc]
  · simp only [markCardReviewed, hc]
  · simp only [markCardReviewed, hc]
  · simp only [markCardReviewed, hc]
    exact length_putByKey_of_mem Flashcard.id ⟨card, hmem, hid.trans hkey.symm⟩
  · intro c hcm hne
    simp only [markCardReviewed, hc]
    exact mem_putByKey_of_ne Flashcard.id hcm (fun h => hne (h.trans hkey))
  · intro c hcm hne
    simp only [markCardReviewed, hc] at hcm
    rcases mem_of_mem_putByKey Flashcard.id hcm with h | h
    · exact absurd ((congrArg Flashcard.id h).trans hkey) hne
    · exact h
  · refine ⟨reviewedCard now q card, ?_, rfl, rfl, rfl, rfl, rfl, rfl, rfl, rfl, rfl,
      rfl, rfl, rfl, rfl, rfl⟩
    simp only [markCardReviewed, hc]
    show getById Flashcard.id cardId
      (putByKey Flashcard.id (reviewedCard now q card) store.flashcards) = _
    have h := getById_putByKey_self Flashcard.id (reviewedCard now q card) store.flashcards
    rwa [hkey] at h

/-! ### Lemmas about session selection -/

theorem sessionResidual_subset (filters : Criteria) (l : List Flashcard) :
    ∀ c ∈ sessionResidual filters l, c ∈ l := by
  have step : ∀ (b : Bool) (p : Flashcard → Bool) (m : List Flashcard),
      ∀ c ∈ (if b = true then m.filter p else m), c ∈ m := by
    intro b p m c hc
    cases b
    · simpa using hc
    · simp only [if_pos rfl] at hc
      exact List.mem_of_mem_filter hc
  intro c hc
  unfold sessionResidual at hc
  exact step _ _ _ _ (step _ _ _ _ (step _ _ _ _ hc))

theorem sessionResidual_length_le (filters : Criteria) (l : List Flashcard) :
    (sessionResidual filters l).length ≤ l.length := by
  have step : ∀ (b : Bool) (p : Flashcard → Bool) (m : List Flashcard),
      (if b = true then m.filter p else m).length ≤ m.length := by
    intro b p m
    cases b
    · simp
    · simp only [if_pos rfl]
      exact List.length_filter_le ..
  unfold sessionResidual
  exact le_trans (step ..) (le_trans (step ..) (step ..))

theorem mem_getDueFlashcards_le (now : Nat) (store : Store) (limit : Nat) :
    ∀ c ∈ getDueFlashcards now store limit, c.nextReview ≤ now := by
  intro c hc
  unfold getDueFlashcards at hc
  have hc' := List.take_subset _ _ hc
  have hc'' := (sortByReview_perm _).mem_iff.mp hc'
  exact of_decide_eq_true (List.mem_filter.mp hc'').2

theorem mem_getNewFlashcards_stage (store : Store) (limit : Nat) :
    ∀ c ∈ getNewFlashcards store limit, c.stage = 0 := by
  intro c hc
  unfold getNewFlashcards at hc
  have hc' := List.take_subset _ _ hc
  exact of_decide_eq_true (List.mem_filter.mp hc').2

/-- Claim C3: in 'due' mode the session returns only cards already due
(`nextReview ≤ now`) and at most `limit` of them; in 'new' mode only cards
at stage 0 and at most `limit` of them; and in both modes every returned
card comes from the candidate pool that was capped at `limit` *before* the
residual type/level/articleId filters ran (`getDueFlashcards now store
limit` resp. `getNewFlashcards store limit`). -/
theorem C3_getCardsForSession_bounds (shuffle : List Flashcard → List Flashcard)
    (hsh : ∀ l, (shuffle l).Perm l) (now : Nat) (store : Store)
    (filters : Criteria) (limit : Nat) :
    (∀ c ∈ getCardsForSession shuffle now store SessionMode.due filters limit,
        c.nextReview ≤ now ∧ c ∈ getDueFlashcards now store limit) ∧
    (getCardsForSession shuffle now store SessionMode.due filters limit).length ≤ limit ∧
    (∀ c ∈ getCardsForSession shuffle now store SessionMode.new filters limit,
        c.stage = 0 ∧ c ∈ getNewFlashcards store limit) ∧
    (getCardsForSession shuffle now store SessionMode.new filters limit).length ≤ limit := by
  refine ⟨?_, ?_, ?_, ?_⟩
  · intro c hc
    simp only [getCardsForSession] at hc
    have hc' := (hsh _).mem_iff.mp hc
    have hc'' := sessionResidual_subset filters _ c hc'
    exact ⟨mem_getDueFlashcards_le now store limit c hc'', hc''⟩
  · simp only [getCardsForSession]
    rw [(hsh _).length_eq]
    refine le_trans (sessionResidual_length_le ..) ?_
    unfold getDueFlashcards
    exact List.length_take_le ..
  · intro c hc
    simp only [getCardsForSession] at hc
    have hc' := (hsh _).mem_iff.mp hc
    have hc'' := sessionResidual_subset filters _ c hc'
    exact ⟨mem_getNewFlashcards_stage store limit c hc'', hc''⟩
  · simp only [getCardsForSession]
    rw [(hsh _).length_eq]
    refine le_trans (sessionResidual_length_le ..) ?_
    unfold getNewFlashcards
    exact List.length_take_le ..

/-! ### The free-text search clause (claim C7) -/

/-- Claim C7 (counterexample): the search filter is NOT a case-insensitive
substring match on the translation.  For the card whose translation is
"ABC" and the query "ABC", the spec's predicate matches (case-insensitively
"abc" occurs in "abc") but the filter drops the card, because the code
lowercases the query and then tests it against the raw translation. -/
theorem C7_search_counterexample :
    ¬ (matchesCriteria { search := some "ABC" } cardC7 = true ↔
        (ciContains cardC7.word "ABC" = true ∨
         ciContains cardC7.persianTranslation "ABC" = true)) := by
  decide

/-- Claim C7 (amended): the search clause keeps a card iff the lowercased
query occurs in the lowercased headword, OR the lowercased query occurs
verbatim in the (un-lowercased) translation. -/
theorem C7_searchKeeps_amended (s : String) (f : Flashcard) (hs : s ≠ "") :
    searchKeeps (some s) f = true ↔
      (ciContains f.word s = true ∨
       jsIncludes f.persianTranslation (jsToLower s) = true) := by
  simp [searchKeeps, hs, ciContains]

/-! ### The segment approval invariant (claim C9) -/

theorem mem_of_getSegment {store : Store} {articleId : String} {k : Nat} {seg : Segment}
    (h : getSegment store articleId k = some seg) : seg ∈ store.segments := by
  unfold getSegment at h
  exact List.mem_of_mem_filter (List.mem_of_find?_eq_some h)

theorem applyOp_preserves_invariant (store : Store) (op : SegOp)
    (hinv : segmentsInvariant store) (hok : opOk store op) :
    segmentsInvariant (applyOp store op) := by
  cases op with
  | approve now ids articleId segmentIndex selectedLemmas =>
    show segmentsInvariant
      (approveWordsForSegment now ids store articleId segmentIndex selectedLemmas)
    cases hseg : getSegment store articleId segmentIndex with
    | none =>
      simp only [approveWordsForSegment, hseg]
      exact hinv
    | some seg =>
      simp only [approveWordsForSegment, hseg]
      intro s hs
      rcases mem_of_mem_putByKey Segment.id hs with h | h
      · subst h
        intro l hl
        exact hok seg hseg l hl
      · exact hinv s h
  | addCustom now cardId articleId segmentIndex analysis =>
    show segmentsInvariant
      (addCustomWordToSegment now cardId store articleId segmentIndex analysis)
    cases hseg : getSegment store articleId segmentIndex with
    | none =>
      simp only [addCustomWordToSegment, hseg]
      exact hinv
    | some seg =>
      simp only [addCustomWordToSegment, hseg]
      intro s hs
      by_cases hex : (seg.analyzedWords.any fun w => w.«lemma» = analysis.«lemma») = true
      · rw [if_pos hex] at hs
        exact hinv s hs
      · rw [if_neg hex] at hs
        rcases mem_of_mem_putByKey Segment.id hs with h | h
        · subst h
          intro l hl
          rcases List.mem_append.mp hl with hl | hl
          · rcases hinv seg (mem_of_getSegment hseg) l hl with ⟨w, hw, hwl⟩
            exact ⟨w, List.mem_append_left _ hw, hwl⟩
          · exact ⟨analysis, List.mem_append_right _ (List.mem_singleton_self _),
              (List.mem_singleton.mp hl).symm⟩
        · exact hinv s h

/-- Claim C9 (amended): after any sequence of `approveWordsForSegment` /
`addCustomWordToSegment` operations in which each `approve` call only
selects lemmas of analyzed words of its target segment, every stored
segment keeps the invariant that each approved lemma is the lemma of some
analyzed word of the same segment.  (The unconditional claim fails:
`approveWordsForSegment` stores `selectedLemmas` wholesale, see the
counterexample.) -/
theorem C9_approvals_preserve_invariant (store : Store) (ops : List SegOp)
    (hinv : segmentsInvariant store) (hval : validOps store ops) :
    segmentsInvariant (applyOps store ops) := by
  induction ops generalizing store with
  | nil => exact hinv
  | cons op rest ih =>
    exact ih (applyOp store op)
      (applyOp_preserves_invariant store op hinv hval.1) hval.2

/-! ### Backup/restore claims -/

/-- Claim C4: importing the export of a store into an empty store
reproduces the store exactly — flashcards, articles, segments, settings and
collections.  The Nodup hypotheses state that primary keys are unique,
which the storage engine guarantees. -/
theorem C4_export_import_roundtrip (now : Nat) (S : Store)
    (h1 : (S.articles.map Article.id).Nodup)
    (h2 : (S.segments.map Segment.id).Nodup)
    (h3 : (S.flashcards.map Flashcard.id).Nodup)
    (h4 : (S.collections.map Collection.id).Nodup) :
    importDatabase emptyStore (exportDatabase now S) = S := by
  obtain ⟨la, ls, lf, st, lc⟩ := S
  have ea : putAll Article.id la [] = la :=
    (putAll_of_keys_disjoint Article.id h1
      (fun x _ y hy => absurd hy (List.not_mem_nil y))).trans (List.nil_append la)
  have es : putAll Segment.id ls [] = ls :=
    (putAll_of_keys_disjoint Segment.id h2
      (fun x _ y hy => absurd hy (List.not_mem_nil y))).trans (List.nil_append ls)
  have ef : putAll Flashcard.id lf [] = lf :=
    (putAll_of_keys_disjoint Flashcard.id h3
      (fun x _ y hy => absurd hy (List.not_mem_nil y))).trans (List.nil_append lf)
  have ec : putAll Collection.id lc [] = lc :=
    (putAll_of_keys_disjoint Collection.id h4
      (fun x _ y hy => absurd hy (List.not_mem_nil y))).trans (List.nil_append lc)
  simp only [importDatabase, exportDatabase, emptyStore]
  rw [ea, es, ef, ec]
  cases st <;> rfl

/-- Claim C5: `importDatabase` merges rather than replaces.  Entity kinds
absent from the document are untouched; existing records whose id does not
occur in the document survive; records of the document end up stored under
their id, overwriting any colliding record wholesale (last write wins). -/
theorem C5_importDatabase_merge (store : Store) (d : BackupDoc) :
    ((d.articles = none → (importDatabase store d).articles = store.articles) ∧
     (d.segments = none → (importDatabase store d).segments = store.segments) ∧
     (d.flashcards = none → (importDatabase store d).flashcards = store.flashcards) ∧
     (d.collections = none → (importDatabase store d).collections = store.collections) ∧
     (d.settings = none → (importDatabase store d).settings = store.settings)) ∧
    ((∀ l, d.articles = some l → ∀ r ∈ store.articles, r.id ∉ l.map Article.id →
        r ∈ (importDatabase store d).articles) ∧
     (∀ l, d.segments = some l → ∀ r ∈ store.segments, r.id ∉ l.map Segment.id →
        r ∈ (importDatabase store d).segments) ∧
     (∀ l, d.flashcards = some l → ∀ r ∈ store.flashcards, r.id ∉ l.map Flashcard.id →
        r ∈ (importDatabase store d).flashcards) ∧
     (∀ l, d.collections = some l → ∀ r ∈ store.collections, r.id ∉ l.map Collection.id →
        r ∈ (importDatabase store d).collections)) ∧
    ((∀ l, d.articles = some l → (l.map Article.id).Nodup → ∀ x ∈ l,
        getById Article.id x.id (importDatabase store d).articles = some x) ∧
     (∀ l, d.segments = some l → (l.map Segment.id).Nodup → ∀ x ∈ l,
        getById Segment.id x.id (importDatabase store d).segments = some x) ∧
     (∀ l, d.flashcards = some l → (l.map Flashcard.id).Nodup → ∀ x ∈ l,
        getById Flashcard.id x.id (importDatabase store d).flashcards = some x) ∧
     (∀ l, d.collections = some l → (l.map Collection.id).Nodup → ∀ x ∈ l,
        getById Collection.id x.id (importDatabase store d).collections = some x) ∧
     (∀ s, d.settings = some s → (importDatabase store d).settings = some s)) := by
  refine ⟨⟨?_, ?_, ?_, ?_, ?_⟩, ⟨?_, ?_, ?_, ?_⟩, ⟨?_, ?_, ?_, ?_, ?_⟩⟩
  · intro h; simp only [importDatabase]; rw [h]
  · intro h; simp only [importDatabase]; rw [h]
  · intro h; simp only [importDatabase]; rw [h]
  · intro h; simp only [importDatabase]; rw [h]
  · intro h; simp only [importDatabase]; rw [h]
  · intro l hl r hr hk
    simp only [importDatabase]
    rw [hl]
    exact mem_putAll_of_key_not_mem Article.id hr hk
  · intro l hl r hr hk
    simp only [importDatabase]
    rw [hl]
    exact mem_putAll_of_key_not_mem Segment.id hr hk
  · intro l hl r hr hk
    simp only [importDatabase]
    rw [hl]
    exact mem_putAll_of_key_not_mem Flashcard.id hr hk
  · intro l hl r hr hk
    simp only [importDatabase]
    rw [hl]
    exact mem_putAll_of_key_not_mem Collection.id hr hk
  · intro l hl hnod x hx
    simp only [importDatabase]
    rw [hl]
    exact getById_putAll_self Article.id store.articles hnod hx
  · intro l hl hnod x hx
    simp only [importDatabase]
    rw [hl]
    exact getById_putAll_self Segment.id store.segments hnod hx
  · intro l hl hnod x hx
    simp only [importDatabase]
    rw [hl]
    exact getById_putAll_self Flashcard.id store.flashcards hnod hx
  · intro l hl hnod x hx
    simp only [importDatabase]
    rw [hl]
    exact getById_putAll_self Collection.id store.collections hnod hx
  · intro s hs
    simp only [importDatabase]
    rw [hs]

/-! ### Witnesses and counterexamples -/

/-- Witness for C1 at a concrete input: reviewing card c2 (stage 1) with
quality 5 at time 100. -/
theorem C1_markCardReviewed_schedule_witness :
    getFlashcard exStore "c2" = some exCardB ∧
    ∃ card', getFlashcard (markCardReviewed 100 exStore "c2" 5) "c2" = some card' ∧
      (3 ≤ (5 : Int) → card'.stage = exCardB.stage + 1 ∧
        card'.nextReview = 100 + 2 ^ (exCardB.stage + 1) * 86400000) ∧
      ((5 : Int) < 3 → card'.stage = 0 ∧ card'.nextReview = 100) :=
  ⟨by decide, C1_markCardReviewed_schedule 100 exStore "c2" 5 exCardB (by decide)⟩

/-- Witness for C2 at a concrete input: querying article a1 in `exStore`. -/
theorem C2_queryFlashcards_articleId_exact_witness :
    ("a1" : String) ≠ "all" ∧ ("a1" : String) ≠ "" ∧
    ((∀ f, f ∈ queryFlashcards exStore { articleId := some "a1" } ↔
        f ∈ exStore.flashcards ∧ f.articleId = "a1") ∧
     (queryFlashcards exStore { articleId := some "a1" }).Pairwise wordLe) :=
  ⟨by decide, by decide,
    C2_queryFlashcards_articleId_exact exStore "a1" (by decide) (by decide)⟩

/-- Witness for C3 at a concrete input: the identity shuffle, time 10,
limit 2 over `exStore`. -/
theorem C3_getCardsForSession_bounds_witness :
    (∀ l : List Flashcard, (id l).Perm l) ∧
    ((∀ c ∈ getCardsForSession id 10 exStore SessionMode.due {} 2,
        c.nextReview ≤ 10 ∧ c ∈ getDueFlashcards 10 exStore 2) ∧
     (getCardsForSession id 10 exStore SessionMode.due {} 2).length ≤ 2 ∧
     (∀ c ∈ getCardsForSession id 10 exStore SessionMode.new {} 2,
        c.stage = 0 ∧ c ∈ getNewFlashcards exStore 2) ∧
     (getCardsForSession id 10 exStore SessionMode.new {} 2).length ≤ 2) :=
  ⟨fun l => List.Perm.refl l,
    C3_getCardsForSession_bounds id (fun l => List.Perm.refl l) 10 exStore {} 2⟩

/-- Witness for C4 at a concrete input: round-tripping `exStore`. -/
theorem C4_export_import_roundtrip_witness :
    importDatabase emptyStore (exportDatabase 0 exStore) = exStore :=
  C4_export_import_roundtrip 0 exStore (by decide) (by decide) (by decide) (by decide)

/-- Witness for C5 at a concrete input: importing a document that carries
only the new flashcard f2 into `exStore` keeps c1, stores f2, and leaves
the articles untouched. -/
theorem C5_importDatabase_merge_witness :
    exCardA ∈ (importDatabase exStore exDoc).flashcards ∧
    getById Flashcard.id "f2" (importDatabase exStore exDoc).flashcards = some exCardNew ∧
    (importDatabase exStore exDoc).articles = exStore.articles := by
  refine ⟨?_, ?_, ?_⟩
  · exact (C5_importDatabase_merge exStore exDoc).2.1.2.2.1
      [exCardNew] rfl exCardA (by decide) (by decide)
  · exact (C5_importDatabase_merge exStore exDoc).2.2.2.2.1
      [exCardNew] rfl (by decide) exCardNew (by decide)
  · exact (C5_importDatabase_merge exStore exDoc).1.1 rfl

/-- Witness for C6 at a concrete input: pages of size 2 over `exStore` (3
matching records, 2 pages). -/
theorem C6_queryFlashcards_pagination_witness :
    0 < 2 ∧
    (queryFlashcards exStore { ({} : Criteria) with offset := none, limit := none }).length
      ≤ 2 * 2 ∧
    ((List.range 2).map (fun i =>
        queryFlashcards exStore
          { ({} : Criteria) with offset := some (i * 2), limit := some 2 })).flatten
      = queryFlashcards exStore { ({} : Criteria) with offset := none, limit := none } :=
  ⟨by decide, by decide,
    C6_queryFlashcards_pagination exStore {} 2 2 (by decide) (by decide)⟩

/-- Witness for C7's amended statement at a concrete input: the query "AB"
against the card with translation "ABC". -/
theorem C7_searchKeeps_amended_witness :
    ("AB" : String) ≠ "" ∧
    (searchKeeps (some "AB") cardC7 = true ↔
      (ciContains cardC7.word "AB" = true ∨
       jsIncludes cardC7.persianTranslation (jsToLower "AB") = true)) :=
  ⟨by decide, C7_searchKeeps_amended "AB" cardC7 (by decide)⟩

/-- Witness for C8 at a concrete input: a failing review (quality 1) of
card c1 at time 50. -/
theorem C8_markCardReviewed_frame_witness :
    getFlashcard exStore "c1" = some exCardA ∧
    ((markCardReviewed 50 exStore "c1" 1).articles = exStore.articles ∧
     (markCardReviewed 50 exStore "c1" 1).segments = exStore.segments ∧
     (markCardReviewed 50 exStore "c1" 1).settings = exStore.settings ∧
     (markCardReviewed 50 exStore "c1" 1).collections = exStore.collections ∧
     (markCardReviewed 50 exStore "c1" 1).flashcards.length = exStore.flashcards.length ∧
     (∀ c ∈ exStore.flashcards, c.id ≠ "c1" →
       c ∈ (markCardReviewed 50 exStore "c1" 1).flashcards) ∧
     (∀ c ∈ (markCardReviewed 50 exStore "c1" 1).flashcards, c.id ≠ "c1" →
       c ∈ exStore.flashcards) ∧
     ∃ card', getFlashcard (markCardReviewed 50 exStore "c1" 1) "c1" = some card' ∧
       card'.id = exCardA.id ∧ card'.articleId = exCardA.articleId ∧
       card'.type = exCardA.type ∧ card'.word = exCardA.word ∧
       card'.«lemma» = exCardA.«lemma» ∧ card'.phonetic = exCardA.phonetic ∧
       card'.partOfSpeech = exCardA.partOfSpeech ∧
       card'.collocations = exCardA.collocations ∧ card'.context = exCardA.context ∧
       card'.level = exCardA.level ∧ card'.definition = exCardA.definition ∧
       card'.persianTranslation = exCardA.persianTranslation ∧
       card'.exampleSentence = exCardA.exampleSentence ∧
       card'.createdAt = exCardA.createdAt) :=
  ⟨by decide, C8_markCardReviewed_frame 50 exStore "c1" 1 exCardA (by decide)⟩

/-- Counterexample for C9 as stated: starting from a store satisfying the
invariant, one `approveWordsForSegment` call that selects the lemma "ghost"
— which no analyzed word of segment s1 has — leaves a stored segment whose
`approvedWordIds` contains a lemma missing from `analyzedWords`. -/
theorem C9_approve_breaks_invariant :
    segmentsInvariant exStore ∧
    ¬ segmentsInvariant
        (applyOps exStore [SegOp.approve 0 (fun _ => "f1") "a1" 0 ["ghost"]]) :=
  ⟨by decide, by decide⟩

/-- Witness for C9's amended statement at a concrete input: a custom-word
addition, whose side condition is trivial. -/
theorem C9_approvals_preserve_invariant_witness :
    segmentsInvariant (applyOps exStore [SegOp.addCustom 7 "c9" "a1" 0 exWA]) :=
  C9_approvals_preserve_invariant exStore [SegOp.addCustom 7 "c9" "a1" 0 exWA]
    (by decide) ⟨trivial, trivial⟩

end LinguaFlow
